import Mathlib

/-!
Verification of the enum code generator
(`packages/plugin/src/code-gen/enum-generator.ts`).

The TypeScript source is shallowly embedded as follows.

* Strings are Lean `String`s (lists of characters).  The JavaScript string
  methods used by the source (`toLowerCase`, regex `replace`, regex `match`)
  act on ASCII identifiers here; the character-level case conversions are
  modelled with the core ASCII `Char.toLower` / `Char.toUpper`, which agree
  with JavaScript on the basic latin range.
* The regex `/(?:^|\s|_)[a-z]/g` with an upper-casing replacer is modelled as
  a left-to-right scan (`capitalizeFrom`): a character is upper-cased exactly
  when it is an ASCII lower-case letter standing at the start of the string or
  directly after a whitespace character or an underscore.  This is equivalent
  to the regex semantics: every match consumes one separator (or the anchor
  `^`) plus one letter, a letter is never a separator, so matches never
  overlap or shadow one another, and upper-casing the whole match equals
  upper-casing its letter (whitespace and `_` are case-less).
* The regex `/@Translate: (\w+)/` with `String.prototype.match` is modelled
  by `findDirective`: try the pattern at every position from the left and
  return the first capture, which is the maximal non-empty run of word
  characters after the literal marker `"@Translate: "`.
* The TypeScript AST factories (`ts.createPropertyAccess`,
  `ts.createStringLiteral`, `ts.createObjectLiteral`, `ts.createArrayLiteral`,
  `ts.createVariableStatement`) are transparent constructors of the `TsExpr`
  and `VariableStmt` types below.
* Collaborators from other packages of this repository that are not part of
  the analysed source are either universally quantified inputs (the enum
  value catalog produced by `interpreter.getEnumInfo` + `rt.listEnumValues`;
  the comment oracle `comments.getCommentBlock`; the resolved type identifier
  from `imports.type`) or are modelled from the specification where marked.
-/

namespace ProtobufTs

/-- A JavaScript `\w` word character: ASCII letter, digit, or underscore. -/
def isWordChar (c : Char) : Bool :=
  c.isAlphanum || c == '_'

/-- A JavaScript `\s` whitespace character (ECMAScript WhiteSpace and
LineTerminator code points). -/
def jsWhitespace (c : Char) : Bool :=
  let n := c.toNat
  n == 0x20 || n == 0x09 || n == 0x0a || n == 0x0b || n == 0x0c || n == 0x0d ||
  n == 0xa0 || n == 0x1680 || (0x2000 ≤ n && n ≤ 0x200a) ||
  n == 0x2028 || n == 0x2029 || n == 0x202f || n == 0x205f ||
  n == 0x3000 || n == 0xfeff

/-- The character class `[a-z]` of the capitalization regex. -/
def isAsciiLower (c : Char) : Bool :=
  decide (97 ≤ c.toNat ∧ c.toNat ≤ 122)

/-- The separator alternatives `\s|_` of the regex `/(?:^|\s|_)[a-z]/g`. -/
def sepJs (c : Char) : Bool :=
  jsWhitespace c || c == '_'

/-- Whether the scan position is a run boundary: the start of the string
(`none`, matching the anchor) or a position whose preceding character
satisfies the separator class. -/
def atBoundary (sep : Char → Bool) : Option Char → Bool
  | none => true
  | some q => sep q

/-- Left-to-right model of `replace(/(?:^|\s|_)[a-z]/g, m => m.toUpperCase())`
(parameterised by the separator class; the source uses `sepJs`): upper-case a
character when it is in `[a-z]` and stands at a run boundary. -/
def capitalizeFrom (sep : Char → Bool) (prev : Option Char) : List Char → List Char
  | [] => []
  | c :: cs =>
      (if atBoundary sep prev && isAsciiLower c then c.toUpper else c) ::
        capitalizeFrom sep (some c) cs

/-- Model of `String.prototype.toLowerCase` on the basic latin range. -/
def jsToLower (s : List Char) : List Char :=
  s.map Char.toLower

/-- Model of `replace(/_/g, ' ')`. -/
def underscoreToSpace (s : List Char) : List Char :=
  s.map fun c => if c == '_' then ' ' else c

/-- `EnumGenerator.formatEnumName`: lower-case the whole name, upper-case
every `[a-z]` character at the string start or directly after `\s` or `_`,
then replace every underscore by a space. -/
def formatEnumName (name : String) : String :=
  String.mk (underscoreToSpace (capitalizeFrom sepJs none (jsToLower name.data)))

/-- The literal part `"@Translate: "` of the directive regex
`/@Translate: (\w+)/`. -/
def directiveMarker : List Char :=
  "@Translate: ".data

/-- Consume the literal `lit` from the front of `s`; `none` when `s` does not
start with `lit`. -/
def dropLit : List Char → List Char → Option (List Char)
  | [], s => some s
  | _ :: _, [] => none
  | l :: ls, c :: cs => if c == l then dropLit ls cs else none

/-- Try the pattern `@Translate: (\w+)` anchored at the current position:
the literal marker followed by a non-empty maximal run of word characters,
which is the capture. -/
def matchDirectiveAt (s : List Char) : Option (List Char) :=
  match dropLit directiveMarker s with
  | none => none
  | some rest =>
      if (rest.takeWhile isWordChar).isEmpty then none
      else some (rest.takeWhile isWordChar)

/-- Leftmost-match search of `/@Translate: (\w+)/`: try the pattern at every
position from the left and return the first successful capture. -/
def findDirectiveAux : List Char → Option (List Char)
  | [] => none
  | c :: cs =>
      match matchDirectiveAt (c :: cs) with
      | some t => some t
      | none => findDirectiveAux cs

/-- Model of `comments.match(/@Translate: (\w+)/)` restricted to the capture
group: the first capture in `s`, or `none` when the regex does not match. -/
def findDirective (s : String) : Option String :=
  (findDirectiveAux s.data).map String.mk

/-- One declared value of `EnumDescriptorProto.value`: symbolic `name` and
integer `number`. -/
structure EnumValueDescriptorProto where
  name : String
  number : Int
deriving DecidableEq

/-- The enum descriptor: optional type `name` and the ordered declared
values. -/
structure EnumDescriptorProto where
  name : Option String
  value : List EnumValueDescriptorProto
deriving DecidableEq

/-- One entry of the resolved enum value catalog, as returned by
`rt.listEnumValues(enumObject)`: symbolic `name` and `number`. -/
structure EnumValueInfo where
  name : String
  number : Int
deriving DecidableEq

/-- One member of the built enum declaration: the `(name, number, comment)`
triple handed to `builder.add`. -/
structure EnumMember where
  name : String
  number : Int
  comment : String
deriving DecidableEq

/-- Shallow TypeScript expression AST, covering the `ts.create*` factories
used by the translation table builder. -/
inductive TsExpr where
  | ident (name : String)
  | propAccess (obj : TsExpr) (member : String)
  | strLit (value : String)
  | objLit (fields : List (String × TsExpr))
  | arrayLit (elems : List TsExpr)

/-- The enum declaration statement produced by `builder.build`.

Modelled from the spec: `TypescriptEnumBuilder` (plugin-framework package,
not under the analysed source) accepts an ordered list of
`(name, number, comment)` triples via `add` and `build`s a declaration with
exactly those members in order, carrying the given modifiers and a leading
documentation comment block. -/
structure EnumDeclarationStmt where
  ident : String
  exported : Bool
  members : List EnumMember
  leadingBlocks : List String
deriving DecidableEq

/-- The variable statement produced by `ts.createVariableStatement`:
modifiers, `const`-ness of the declaration list, variable name and
initializer. -/
structure VariableStmt where
  exported : Bool
  isConst : Bool
  varName : String
  init : TsExpr

/-- A top-level statement of the output file. -/
inductive TsStatement where
  | enumDecl (d : EnumDeclarationStmt)
  | varDecl (v : VariableStmt)

/-- The output file.

Modelled from the spec: `TypescriptFile` (plugin-framework package, not under
the analysed source) is a file abstraction that accumulates statements. -/
structure TypescriptFile where
  statements : List TsStatement

/-- Modelled from the spec: `TypescriptFile.addStatement` appends one
statement to the accumulated file. -/
def TypescriptFile.addStatement (f : TypescriptFile) (s : TsStatement) : TypescriptFile :=
  ⟨f.statements ++ [s]⟩

/-- The fixed comment of the loop in `generateEnum` for a catalog entry with
no matching declared value. -/
def syntheticComment : String :=
  "@generated synthetic value - protobuf-ts requires all enums to have a 0 value"

/-- The body of the `for` loop of `generateEnum` for one catalog entry `ev`:
find the first declared value with the same number
(`descriptor.value.find(v => v.number === ev.number)`); its leading comment
block (the oracle `cb`, standing for `comments.getCommentBlock(_, true)`) or
the fixed synthetic comment becomes the member comment. -/
def buildMemberFor (cb : EnumValueDescriptorProto → String)
    (d : EnumDescriptorProto) (ev : EnumValueInfo) : EnumMember :=
  match d.value.find? (fun v => v.number == ev.number) with
  | some vd => ⟨ev.name, ev.number, cb vd⟩
  | none => ⟨ev.name, ev.number, syntheticComment⟩

/-- All triples handed to `builder.add` by `generateEnum`, in catalog order. -/
def buildMembers (cb : EnumValueDescriptorProto → String)
    (d : EnumDescriptorProto) (catalog : List EnumValueInfo) : List EnumMember :=
  catalog.map (buildMemberFor cb d)

/-- `EnumGenerator.generateEnum`.  The catalog (`rt.listEnumValues` of the
interpreted enum object), the comment oracle `cb`, the resolved identifier
`typeIdent` (`imports.type`), the declaration's leading comment block
`blocks` as produced by the builder, and the type comment `typeComment`
attached by `comments.addCommentsForDescriptor` are inputs.

Modelled from the spec: `builder.build` produces the declaration with the
added members and the export modifier; `addCommentsForDescriptor` with mode
`'appendToLeadingBlock'` appends the type comment to the statement's existing
leading comment block.  The statement object is shared between the file and
the returned value, so both carry the appended comment. -/
def generateEnum (cb : EnumValueDescriptorProto → String) (typeIdent : String)
    (blocks : List String) (typeComment : String) (d : EnumDescriptorProto)
    (catalog : List EnumValueInfo) (source : TypescriptFile) :
    TypescriptFile × EnumDeclarationStmt :=
  let statement : EnumDeclarationStmt :=
    { ident := typeIdent
      exported := true
      members := buildMembers cb d catalog
      leadingBlocks := blocks ++ [typeComment] }
  (source.addStatement (.enumDecl statement), statement)

/-- The label choice of the loop of `generateTranslationTable`, as a
function of the comment (`none` models `null`): default `translatedName`,
overridden by the first `@Translate:` directive capture when the comment is
present and truthy (non-`null` and non-empty, the test `if (comments)`) and
the regex matches. -/
def labelFromComment (comments : Option String) (translatedName : String) : String :=
  match comments with
  | none => translatedName
  | some c =>
      if c = "" then translatedName
      else
        match findDirective c with
        | some t => t
        | none => translatedName

/-- The label of one translation entry: `labelFromComment` applied to the
matched declared value's leading comment block (the oracle `cb`) and the
default `formatEnumName(ev.name)`. -/
def entryLabel (cb : EnumValueDescriptorProto → String)
    (d : EnumDescriptorProto) (ev : EnumValueInfo) : String :=
  labelFromComment ((d.value.find? (fun v => v.number == ev.number)).map cb)
    (formatEnumName ev.name)

/-- One element of the translation table array:
`{ id: <Ident>.<member>, name: "<label>" }` where `<Ident>` is
`descriptor.name ?? "SpectralBot"`. -/
def translationEntryExpr (cb : EnumValueDescriptorProto → String)
    (d : EnumDescriptorProto) (ev : EnumValueInfo) : TsExpr :=
  .objLit
    [("id", .propAccess (.ident (d.name.getD "SpectralBot")) ev.name),
     ("name", .strLit (entryLabel cb d ev))]

/-- The `translations` array of `generateTranslationTable`, in catalog
order. -/
def translationEntries (cb : EnumValueDescriptorProto → String)
    (d : EnumDescriptorProto) (catalog : List EnumValueInfo) : List TsExpr :=
  catalog.map (translationEntryExpr cb d)

/-- JavaScript template-literal interpolation of the possibly-absent
descriptor name: `undefined` prints as the string `"undefined"`. -/
def jsTemplate : Option String → String
  | some s => s
  | none => "undefined"

/-- The exported `const` variable statement
`export const <${descriptor.name}Translation> = [ ... ]` built by
`generateTranslationTable`. -/
def translationStatement (cb : EnumValueDescriptorProto → String)
    (d : EnumDescriptorProto) (catalog : List EnumValueInfo) : VariableStmt :=
  { exported := true
    isConst := true
    varName := jsTemplate d.name ++ "Translation"
    init := .arrayLit (translationEntries cb d catalog) }

/-- `EnumGenerator.generateTranslationTable`: build the translation entries
and append the variable statement to the source file. -/
def generateTranslationTable (cb : EnumValueDescriptorProto → String)
    (d : EnumDescriptorProto) (catalog : List EnumValueInfo)
    (source : TypescriptFile) : TypescriptFile :=
  source.addStatement (.varDecl (translationStatement cb d catalog))

/-- The string value of the `name` field of a translation entry. -/
def transEntryLabel : TsExpr → Option String
  | .objLit [(_, _), (_, .strLit s)] => some s
  | _ => none

/-- The identifier on which the `id` field of a translation entry accesses
the member. -/
def refObjName : TsExpr → Option String
  | .objLit ((_, .propAccess (.ident o) _) :: _) => some o
  | _ => none

/-- The member name accessed by the `id` field of a translation entry. -/
def refMemberName : TsExpr → Option String
  | .objLit ((_, .propAccess _ m) :: _) => some m
  | _ => none


/-- The capitalization pass as the specification words it: upper-case the
first character of every run, a run beginning at the string start or
directly after a separator character. -/
def runCapitalize (sep : Char → Bool) (s : List Char) : List Char :=
  List.zipWith (fun c p => if atBoundary sep p then c.toUpper else c) s (none :: s.map some)

/-- The humanization algorithm exactly as the claim words it: runs begin at
the string start or directly after a space or an underscore. -/
def humanizeClaim (name : String) : String :=
  String.mk (underscoreToSpace
    (runCapitalize (fun c => c == ' ' || c == '_') (jsToLower name.data)))

/-- The amended humanization algorithm: runs begin at the string start or
directly after a whitespace character or an underscore. -/
def humanizeAmended (name : String) : String :=
  String.mk (underscoreToSpace (runCapitalize sepJs (jsToLower name.data)))

theorem toUpper_eq_of_not_asciiLower {c : Char} (h : isAsciiLower c = false) :
    c.toUpper = c := by
  have h' : ¬(97 ≤ c.toNat ∧ c.toNat ≤ 122) := by
    simpa [isAsciiLower] using h
  show (if c.toNat ≥ 97 ∧ c.toNat ≤ 122 then Char.ofNat (c.toNat - 32) else c) = c
  rw [if_neg (fun hc => h' ⟨hc.1, hc.2⟩)]

theorem capitalizeFrom_eq_runCapitalize (sep : Char → Bool) (s : List Char) :
    ∀ prev, capitalizeFrom sep prev s =
      List.zipWith (fun c p => if atBoundary sep p then c.toUpper else c) s
        (prev :: s.map some) := by
  induction s with
  | nil => intro prev; rfl
  | cons c cs ih =>
      intro prev
      rw [capitalizeFrom, List.map_cons, List.zipWith_cons_cons, ← ih (some c)]
      congr 1
      cases hb : atBoundary sep prev with
      | false => simp
      | true =>
          cases hl : isAsciiLower c with
          | true => simp
          | false => simp [toUpper_eq_of_not_asciiLower hl]

theorem capitalizeFrom_length (sep : Char → Bool) (s : List Char) :
    ∀ prev, (capitalizeFrom sep prev s).length = s.length := by
  induction s with
  | nil => intro prev; rfl
  | cons c cs ih => intro prev; simp [capitalizeFrom, ih (some c)]

theorem formatEnumName_data_length (s : String) :
    (formatEnumName s).data.length = s.data.length := by
  show (underscoreToSpace (capitalizeFrom sepJs none (jsToLower s.data))).length = _
  simp [underscoreToSpace, jsToLower, capitalizeFrom_length]

theorem formatEnumName_ne_empty {s : String} (h : s ≠ "") : formatEnumName s ≠ "" := by
  intro hc
  apply h
  have hlen := formatEnumName_data_length s
  rw [hc] at hlen
  obtain ⟨l⟩ := s
  cases l with
  | nil => rfl
  | cons a as => simp at hlen

theorem matchDirectiveAt_token {s t : List Char} (h : matchDirectiveAt s = some t) :
    t ≠ [] ∧ ∀ c ∈ t, isWordChar c = true := by
  unfold matchDirectiveAt at h
  split at h
  · exact absurd h (by simp)
  · split at h
    · exact absurd h (by simp)
    · next hne =>
        injection h with h1
        subst h1
        refine ⟨by simpa [List.isEmpty_iff] using hne, ?_⟩
        intro c hc
        exact List.mem_takeWhile_imp hc

theorem findDirectiveAux_token {s t : List Char} (h : findDirectiveAux s = some t) :
    t ≠ [] ∧ ∀ c ∈ t, isWordChar c = true := by
  induction s with
  | nil => exact absurd h (by simp [findDirectiveAux])
  | cons c cs ih =>
      rw [findDirectiveAux] at h
      cases hm : matchDirectiveAt (c :: cs) with
      | some u =>
          rw [hm] at h
          injection h with h1
          subst h1
          exact matchDirectiveAt_token hm
      | none => rw [hm] at h; exact ih h

theorem findDirective_token {s t : String} (h : findDirective s = some t) :
    t ≠ "" ∧ ∀ c ∈ t.data, isWordChar c = true := by
  unfold findDirective at h
  cases hf : findDirectiveAux s.data with
  | none => rw [hf] at h; exact absurd h (by simp)
  | some u =>
      rw [hf] at h
      obtain ⟨hne, hall⟩ := findDirectiveAux_token hf
      simp only [Option.map_some'] at h
      injection h with h1
      subst h1
      refine ⟨?_, hall⟩
      intro hc
      exact hne (by simpa using congrArg String.data hc)

theorem find?_first_of_split {α : Type} {p : α → Bool} {pre suf : List α} {x : α}
    (hpre : ∀ u ∈ pre, p u = false) (hx : p x = true) :
    List.find? p (pre ++ x :: suf) = some x := by
  induction pre with
  | nil => rw [List.nil_append]; exact List.find?_cons_of_pos _ hx
  | cons a l ih =>
      have ha : p a = false := hpre a (List.mem_cons_self a l)
      rw [List.cons_append, List.find?_cons_of_neg _ (by simp [ha])]
      exact ih fun u hu => hpre u (List.mem_cons_of_mem a hu)

theorem buildMemberFor_name (cb : EnumValueDescriptorProto → String)
    (d : EnumDescriptorProto) (ev : EnumValueInfo) :
    (buildMemberFor cb d ev).name = ev.name := by
  unfold buildMemberFor
  cases d.value.find? (fun v => v.number == ev.number) <;> rfl

theorem buildMemberFor_number (cb : EnumValueDescriptorProto → String)
    (d : EnumDescriptorProto) (ev : EnumValueInfo) :
    (buildMemberFor cb d ev).number = ev.number := by
  unfold buildMemberFor
  cases d.value.find? (fun v => v.number == ev.number) <;> rfl

theorem refMemberName_entry (cb : EnumValueDescriptorProto → String)
    (d : EnumDescriptorProto) (ev : EnumValueInfo) :
    refMemberName (translationEntryExpr cb d ev) = some ev.name := rfl

theorem refObjName_entry (cb : EnumValueDescriptorProto → String)
    (d : EnumDescriptorProto) (ev : EnumValueInfo) :
    refObjName (translationEntryExpr cb d ev) = some (d.name.getD "SpectralBot") := rfl

theorem transEntryLabel_entry (cb : EnumValueDescriptorProto → String)
    (d : EnumDescriptorProto) (ev : EnumValueInfo) :
    transEntryLabel (translationEntryExpr cb d ev) = some (entryLabel cb d ev) := rfl

theorem findDirective_empty : findDirective "" = none := rfl

theorem entryLabel_of_directive (cb : EnumValueDescriptorProto → String)
    (d : EnumDescriptorProto) (ev : EnumValueInfo)
    (vd : EnumValueDescriptorProto) (t : String)
    (hf : d.value.find? (fun v => v.number == ev.number) = some vd)
    (hd : findDirective (cb vd) = some t) :
    entryLabel cb d ev = t := by
  unfold entryLabel
  rw [hf]
  simp only [Option.map_some', labelFromComment]
  by_cases hc : cb vd = ""
  · rw [hc] at hd
    exact absurd hd (by simp [findDirective_empty])
  · rw [if_neg hc, hd]

theorem entryLabel_default_of_no_directive (cb : EnumValueDescriptorProto → String)
    (d : EnumDescriptorProto) (ev : EnumValueInfo) (vd : EnumValueDescriptorProto)
    (hf : d.value.find? (fun v => v.number == ev.number) = some vd)
    (hd : findDirective (cb vd) = none) :
    entryLabel cb d ev = formatEnumName ev.name := by
  unfold entryLabel
  rw [hf]
  simp only [Option.map_some', labelFromComment]
  by_cases hc : cb vd = ""
  · rw [if_pos hc]
  · rw [if_neg hc, hd]

theorem entryLabel_default_of_no_match (cb : EnumValueDescriptorProto → String)
    (d : EnumDescriptorProto) (ev : EnumValueInfo)
    (hf : d.value.find? (fun v => v.number == ev.number) = none) :
    entryLabel cb d ev = formatEnumName ev.name := by
  unfold entryLabel
  rw [hf]
  rfl

theorem entryLabel_ne_empty (cb : EnumValueDescriptorProto → String)
    (d : EnumDescriptorProto) (ev : EnumValueInfo) (hn : ev.name ≠ "") :
    entryLabel cb d ev ≠ "" := by
  unfold entryLabel
  cases hf : d.value.find? (fun v => v.number == ev.number) with
  | none => simpa [labelFromComment] using formatEnumName_ne_empty hn
  | some vd =>
      simp only [Option.map_some', labelFromComment]
      by_cases hc : cb vd = ""
      · rw [if_pos hc]; exact formatEnumName_ne_empty hn
      · rw [if_neg hc]
        cases hd : findDirective (cb vd) with
        | none => exact formatEnumName_ne_empty hn
        | some t => exact (findDirective_token hd).1


/-- C1: for every enumeration descriptor and non-empty value catalog,
`generateEnum` emits exactly one declaration member per catalog entry and
`generateTranslationTable` emits exactly one translation entry per catalog
entry; both outputs have the same length as the catalog and preserve its
order, with member names and numbers matching the catalog entries. -/
theorem generateEnum_translation_catalog_correspondence
    (cb : EnumValueDescriptorProto → String) (typeIdent : String)
    (blocks : List String) (typeComment : String) (d : EnumDescriptorProto)
    (catalog : List EnumValueInfo) (source : TypescriptFile)
    (_hne : catalog ≠ []) :
    ((generateEnum cb typeIdent blocks typeComment d catalog source).2.members.length
        = catalog.length) ∧
    ((generateEnum cb typeIdent blocks typeComment d catalog source).2.members.map
        EnumMember.name = catalog.map EnumValueInfo.name) ∧
    ((generateEnum cb typeIdent blocks typeComment d catalog source).2.members.map
        EnumMember.number = catalog.map EnumValueInfo.number) ∧
    ((translationEntries cb d catalog).length = catalog.length) ∧
    ((translationEntries cb d catalog).map refMemberName
        = catalog.map fun ev => some ev.name) ∧
    ((translationStatement cb d catalog).init
        = .arrayLit (translationEntries cb d catalog)) := by
  refine ⟨?_, ?_, ?_, ?_, ?_, rfl⟩
  · simp [generateEnum, buildMembers]
  · simp [generateEnum, buildMembers, List.map_map, Function.comp_def, buildMemberFor_name]
  · simp [generateEnum, buildMembers, List.map_map, Function.comp_def, buildMemberFor_number]
  · simp [translationEntries]
  · simp [translationEntries, List.map_map, Function.comp_def, refMemberName_entry]

theorem generateEnum_translation_catalog_correspondence_witness :
    (generateEnum (fun _ => "") "Status" [] "tc" ⟨some "Status", []⟩
        [⟨"UNSPECIFIED", 0⟩, ⟨"ACTIVE", 1⟩] ⟨[]⟩).2.members.length = 2 ∧
    (translationEntries (fun _ => "") ⟨some "Status", []⟩
        [⟨"UNSPECIFIED", 0⟩, ⟨"ACTIVE", 1⟩]).length = 2 := by
  have h := generateEnum_translation_catalog_correspondence (fun _ => "") "Status" [] "tc"
    ⟨some "Status", []⟩ [⟨"UNSPECIFIED", 0⟩, ⟨"ACTIVE", 1⟩] ⟨[]⟩ (by decide)
  exact ⟨by rw [h.1]; decide, by rw [h.2.2.2.1]; decide⟩

/-- C2 counterexample: the claim's algorithm capitalizes only after a space
or an underscore, but the code's regex class `\s` also matches a tab: on
`"a\tb"` the code yields `"A\tB"` while the claim's algorithm yields
`"A\tb"`. -/
theorem formatEnumName_claim_counterexample :
    formatEnumName "a\tb" = "A\tB" ∧ humanizeClaim "a\tb" = "A\tb" ∧
    ("A\tB" : String) ≠ "A\tb" := by
  exact ⟨by decide, by decide, by decide⟩

/-- C2 (amended): `formatEnumName` is a total, deterministic function of its
input string that lower-cases the whole name, upper-cases the first letter
of every run beginning at the string start or immediately after a whitespace
character or an underscore, and then replaces every underscore with a space;
`"READY_TO_START"` yields `"Ready To Start"`, `""` yields `""`, and `"A"`
yields `"A"`. -/
theorem formatEnumName_humanizes :
    (∀ s : String, formatEnumName s = humanizeAmended s) ∧
    formatEnumName "READY_TO_START" = "Ready To Start" ∧
    formatEnumName "" = "" ∧ formatEnumName "A" = "A" := by
  refine ⟨fun s => ?_, by decide, by decide, by decide⟩
  unfold formatEnumName humanizeAmended runCapitalize
  rw [capitalizeFrom_eq_runCapitalize]

/-- C3: a directive capture in the matched comment overrides the default
label verbatim; with no well-formed directive, or with no comment at all,
the label is the default humanized member name, which is never the empty
string for a non-empty member name; `"@Translate: Foo"` captures `"Foo"`
and a bare `"@Translate:"` does not match. -/
theorem entryLabel_directive_and_defaults (cb : EnumValueDescriptorProto → String)
    (d : EnumDescriptorProto) (ev : EnumValueInfo) :
    (∀ vd t, d.value.find? (fun v => v.number == ev.number) = some vd →
        findDirective (cb vd) = some t →
        transEntryLabel (translationEntryExpr cb d ev) = some t) ∧
    (∀ vd, d.value.find? (fun v => v.number == ev.number) = some vd →
        findDirective (cb vd) = none →
        transEntryLabel (translationEntryExpr cb d ev) = some (formatEnumName ev.name)) ∧
    (d.value.find? (fun v => v.number == ev.number) = none →
        transEntryLabel (translationEntryExpr cb d ev) = some (formatEnumName ev.name)) ∧
    (ev.name ≠ "" → entryLabel cb d ev ≠ "") ∧
    findDirective "@Translate: Foo" = some "Foo" ∧
    findDirective "@Translate:" = none := by
  refine ⟨?_, ?_, ?_, entryLabel_ne_empty cb d ev, by decide, by decide⟩
  · intro vd t hf hd
    rw [transEntryLabel_entry, entryLabel_of_directive cb d ev vd t hf hd]
  · intro vd hf hd
    rw [transEntryLabel_entry, entryLabel_default_of_no_directive cb d ev vd hf hd]
  · intro hf
    rw [transEntryLabel_entry, entryLabel_default_of_no_match cb d ev hf]

theorem entryLabel_directive_and_defaults_witness :
    transEntryLabel (translationEntryExpr (fun _ => "@Translate: Foo")
        ⟨some "S", [⟨"X", 0⟩]⟩ ⟨"READY_TO_START", 0⟩) = some "Foo" ∧
    findDirective "@Translate:" = none := by
  have h := entryLabel_directive_and_defaults (fun _ => "@Translate: Foo")
    ⟨some "S", [⟨"X", 0⟩]⟩ ⟨"READY_TO_START", 0⟩
  exact ⟨h.1 ⟨"X", 0⟩ "Foo" (by decide) (by decide), h.2.2.2.2.2⟩

/-- C4: a catalog entry with no declared member of equal number is emitted
with the fixed synthetic-value comment, verbatim and identical for all such
entries. -/
theorem generateEnum_synthetic_comment
    (cb : EnumValueDescriptorProto → String) (typeIdent : String)
    (blocks : List String) (typeComment : String) (d : EnumDescriptorProto)
    (catalog : List EnumValueInfo) (source : TypescriptFile)
    (i : Nat) (ev : EnumValueInfo) (hev : catalog[i]? = some ev)
    (hnone : ∀ vd ∈ d.value, vd.number ≠ ev.number) :
    (generateEnum cb typeIdent blocks typeComment d catalog source).2.members[i]? =
      some ⟨ev.name, ev.number,
        "@generated synthetic value - protobuf-ts requires all enums to have a 0 value"⟩ := by
  have hfind : d.value.find? (fun v => v.number == ev.number) = none := by
    rw [List.find?_eq_none]
    intro x hx
    simpa using hnone x hx
  show (buildMembers cb d catalog)[i]? = _
  rw [buildMembers, List.getElem?_map, hev]
  simp [buildMemberFor, hfind, syntheticComment]

theorem generateEnum_synthetic_comment_witness :
    (generateEnum (fun _ => "") "Status" [] "tc" ⟨some "Status", []⟩
        [⟨"UNSPECIFIED", 0⟩] ⟨[]⟩).2.members[0]? =
      some ⟨"UNSPECIFIED", 0,
        "@generated synthetic value - protobuf-ts requires all enums to have a 0 value"⟩ := by
  exact generateEnum_synthetic_comment (fun _ => "") "Status" [] "tc" ⟨some "Status", []⟩
    [⟨"UNSPECIFIED", 0⟩] ⟨[]⟩ 0 ⟨"UNSPECIFIED", 0⟩ (by decide) (by decide)

/-- C5: `generateEnum` locates the matching declared member by equality of
number, taking the first match in declaration order when numbers repeat, and
the emitted member's comment is that member's leading comment block (the
oracle `cb`) verbatim. -/
theorem generateEnum_member_comment_first_match
    (cb : EnumValueDescriptorProto → String) (typeIdent : String)
    (blocks : List String) (typeComment : String) (d : EnumDescriptorProto)
    (catalog : List EnumValueInfo) (source : TypescriptFile)
    (i : Nat) (ev : EnumValueInfo) (pre suf : List EnumValueDescriptorProto)
    (vd : EnumValueDescriptorProto)
    (hev : catalog[i]? = some ev)
    (hsplit : d.value = pre ++ vd :: suf)
    (hpre : ∀ u ∈ pre, u.number ≠ ev.number)
    (hvd : vd.number = ev.number) :
    (generateEnum cb typeIdent blocks typeComment d catalog source).2.members[i]? =
      some ⟨ev.name, ev.number, cb vd⟩ := by
  have hfind : d.value.find? (fun v => v.number == ev.number) = some vd := by
    rw [hsplit]
    refine find?_first_of_split ?_ ?_
    · intro u hu
      simpa using hpre u hu
    · simpa using hvd
  show (buildMembers cb d catalog)[i]? = _
  rw [buildMembers, List.getElem?_map, hev]
  simp [buildMemberFor, hfind]

theorem generateEnum_member_comment_first_match_witness :
    (generateEnum (fun v => v.name) "S" [] "tc"
        ⟨some "S", [⟨"A", 0⟩, ⟨"B", 0⟩]⟩ [⟨"ANY", 0⟩] ⟨[]⟩).2.members[0]? =
      some ⟨"ANY", 0, "A"⟩ := by
  exact generateEnum_member_comment_first_match (fun v => v.name) "S" [] "tc"
    ⟨some "S", [⟨"A", 0⟩, ⟨"B", 0⟩]⟩ [⟨"ANY", 0⟩] ⟨[]⟩ 0 ⟨"ANY", 0⟩
    [] [⟨"B", 0⟩] ⟨"A", 0⟩ (by decide) rfl (by decide) rfl


/-- C6 fails on the code: with an absent descriptor name the translation
table variable is named by template interpolation of the absent name, which
yields `"undefinedTranslation"`, not by substituting the fallback literal
`"SpectralBot"` (which would yield `"SpectralBotTranslation"`). -/
theorem translation_table_name_fallback_counterexample :
    (translationStatement (fun _ => "") ⟨none, []⟩ [⟨"ANY", 0⟩]).varName
        = "undefinedTranslation" ∧
    (translationStatement (fun _ => "") ⟨none, []⟩ [⟨"ANY", 0⟩]).varName
        ≠ "SpectralBot" ++ "Translation" := by
  exact ⟨rfl, by decide⟩

/-- C6 (amended): when the descriptor's name is absent,
`generateTranslationTable` does not fail: it still appends its statement;
the fixed fallback literal `"SpectralBot"` is substituted in the per-entry
member references, while the translation table variable is named
`"undefinedTranslation"` by interpolating the absent name. -/
theorem generateTranslationTable_absent_name
    (cb : EnumValueDescriptorProto → String) (d : EnumDescriptorProto)
    (catalog : List EnumValueInfo) (source : TypescriptFile)
    (hname : d.name = none) :
    (generateTranslationTable cb d catalog source).statements =
      source.statements ++ [.varDecl (translationStatement cb d catalog)] ∧
    (translationStatement cb d catalog).varName = "undefinedTranslation" ∧
    ∀ ev ∈ catalog, refObjName (translationEntryExpr cb d ev) = some "SpectralBot" := by
  refine ⟨rfl, ?_, ?_⟩
  · show jsTemplate d.name ++ "Translation" = "undefinedTranslation"
    rw [hname]
    decide
  · intro ev _
    rw [refObjName_entry, hname]
    rfl

theorem generateTranslationTable_absent_name_witness :
    (generateTranslationTable (fun _ => "") ⟨none, []⟩ [⟨"ANY", 0⟩] ⟨[]⟩).statements =
      [.varDecl (translationStatement (fun _ => "") ⟨none, []⟩ [⟨"ANY", 0⟩])] ∧
    (translationStatement (fun _ => "") ⟨none, []⟩ [⟨"ANY", 0⟩]).varName =
      "undefinedTranslation" := by
  have h := generateTranslationTable_absent_name (fun _ => "") ⟨none, []⟩
    [⟨"ANY", 0⟩] ⟨[]⟩ rfl
  exact ⟨by rw [h.1]; rfl, h.2.1⟩

/-- C7: `generateTranslationTable` appends exactly one exported,
const-qualified, array-valued statement named by concatenating the
enumeration's name with the suffix `"Translation"`, whose elements each are
object literals with an `id` property access of the member name on the
enumeration identifier and a `name` string-literal label. -/
theorem generateTranslationTable_shape
    (cb : EnumValueDescriptorProto → String) (d : EnumDescriptorProto)
    (catalog : List EnumValueInfo) (source : TypescriptFile) (n : String)
    (hname : d.name = some n) :
    (generateTranslationTable cb d catalog source).statements =
      source.statements ++ [.varDecl (translationStatement cb d catalog)] ∧
    (translationStatement cb d catalog).exported = true ∧
    (translationStatement cb d catalog).isConst = true ∧
    (translationStatement cb d catalog).varName = n ++ "Translation" ∧
    (translationStatement cb d catalog).init =
      .arrayLit (catalog.map fun ev =>
        .objLit [("id", .propAccess (.ident n) ev.name),
                 ("name", .strLit (entryLabel cb d ev))]) := by
  refine ⟨rfl, rfl, rfl, ?_, ?_⟩
  · show jsTemplate d.name ++ "Translation" = n ++ "Translation"
    rw [hname]
    rfl
  · show TsExpr.arrayLit (translationEntries cb d catalog) = _
    rw [translationEntries]
    congr 1
    refine List.map_congr_left fun ev _ => ?_
    rw [translationEntryExpr, hname]
    rfl

theorem generateTranslationTable_shape_witness :
    (translationStatement (fun _ => "") ⟨some "Status", []⟩ [⟨"ANY", 0⟩]).varName
        = "StatusTranslation" := by
  have h := generateTranslationTable_shape (fun _ => "") ⟨some "Status", []⟩
    [⟨"ANY", 0⟩] ⟨[]⟩ "Status" rfl
  rw [h.2.2.2.1]
  decide

/-- C8: directive matching is case-sensitive, recognizes only the first
occurrence of the pattern `@Translate: <token>`, captures a non-empty token
consisting only of word characters, and uses the captured token as the
label verbatim. -/
theorem directive_matching_semantics (cb : EnumValueDescriptorProto → String)
    (d : EnumDescriptorProto) (ev : EnumValueInfo) :
    (∀ c t : String, findDirective c = some t →
        t ≠ "" ∧ ∀ ch ∈ t.data, isWordChar ch = true) ∧
    (∀ vd t, d.value.find? (fun v => v.number == ev.number) = some vd →
        findDirective (cb vd) = some t →
        transEntryLabel (translationEntryExpr cb d ev) = some t) ∧
    findDirective "@translate: Foo" = none ∧
    findDirective "@TRANSLATE: Foo" = none ∧
    findDirective "@Translate: First and @Translate: Second" = some "First" ∧
    findDirective "@Translate: # @Translate: Ok" = some "Ok" ∧
    findDirective "@Translate: Foo Bar" = some "Foo" := by
  refine ⟨fun c t h => findDirective_token h, ?_,
    by decide, by decide, by decide, by decide, by decide⟩
  intro vd t hf hd
  rw [transEntryLabel_entry, entryLabel_of_directive cb d ev vd t hf hd]

theorem directive_matching_semantics_witness :
    ("Foo" : String) ≠ "" ∧ ∀ ch ∈ ("Foo" : String).data, isWordChar ch = true := by
  have h := directive_matching_semantics (fun _ => "") ⟨some "S", []⟩ ⟨"A", 0⟩
  exact h.1 "@Translate: Foo" "Foo" (by decide)

/-- C9: `generateEnum` appends the exported enumeration declaration to the
output file as a new top-level statement; the type-level documentation
comment is appended to the declaration's existing leading comment block
rather than replacing it; and the returned value is the same declaration
statement that was appended. -/
theorem generateEnum_appends_and_returns
    (cb : EnumValueDescriptorProto → String) (typeIdent : String)
    (blocks : List String) (typeComment : String) (d : EnumDescriptorProto)
    (catalog : List EnumValueInfo) (source : TypescriptFile) :
    ((generateEnum cb typeIdent blocks typeComment d catalog source).1.statements =
      source.statements ++
        [.enumDecl (generateEnum cb typeIdent blocks typeComment d catalog source).2]) ∧
    (generateEnum cb typeIdent blocks typeComment d catalog source).2.exported = true ∧
    (generateEnum cb typeIdent blocks typeComment d catalog source).2.leadingBlocks =
      blocks ++ [typeComment] :=
  ⟨rfl, rfl, rfl⟩

/-- C10: every translation entry's `id` is a property access of the member
name on an identifier equal to the descriptor's name when present and on
the literal `"SpectralBot"` when absent; the fallback applies only to the
per-entry references, never to the variable name, which is always the
interpolated descriptor name followed by `"Translation"`. -/
theorem translation_ref_fallback_scope (cb : EnumValueDescriptorProto → String)
    (d : EnumDescriptorProto) (catalog : List EnumValueInfo) :
    (∀ n, d.name = some n → ∀ ev ∈ catalog,
        refObjName (translationEntryExpr cb d ev) = some n ∧
        refMemberName (translationEntryExpr cb d ev) = some ev.name) ∧
    (d.name = none → ∀ ev ∈ catalog,
        refObjName (translationEntryExpr cb d ev) = some "SpectralBot" ∧
        refMemberName (translationEntryExpr cb d ev) = some ev.name) ∧
    (∀ n, d.name = some n →
        (translationStatement cb d catalog).varName = n ++ "Translation") ∧
    (d.name = none →
        (translationStatement cb d catalog).varName = "undefined" ++ "Translation") := by
  refine ⟨?_, ?_, ?_, ?_⟩
  · intro n hn ev _
    exact ⟨by rw [refObjName_entry, hn]; rfl, refMemberName_entry cb d ev⟩
  · intro hn ev _
    exact ⟨by rw [refObjName_entry, hn]; rfl, refMemberName_entry cb d ev⟩
  · intro n hn
    show jsTemplate d.name ++ "Translation" = n ++ "Translation"
    rw [hn]
    rfl
  · intro hn
    show jsTemplate d.name ++ "Translation" = "undefined" ++ "Translation"
    rw [hn]
    rfl

theorem translation_ref_fallback_scope_witness :
    refObjName (translationEntryExpr (fun _ => "") ⟨none, []⟩ ⟨"ANY", 0⟩)
        = some "SpectralBot" ∧
    (translationStatement (fun _ => "") ⟨none, []⟩ [⟨"ANY", 0⟩]).varName
        = "undefined" ++ "Translation" := by
  have h := translation_ref_fallback_scope (fun _ => "") ⟨none, []⟩ [⟨"ANY", 0⟩]
  exact ⟨(h.2.1 rfl ⟨"ANY", 0⟩ (by decide)).1, h.2.2.2 rfl⟩

end ProtobufTs
